import Mathlib

/-!
Verification of the BioMark rank-fusion and model-evaluation core.

The Python source is embedded shallowly:
  * Python dicts become insertion-ordered association lists
    (`List (String × _)`), with `setK` mirroring `d[k] = v`
    (replace in place when present, append when absent).
  * Finite numeric scores become `ℚ`; a value that is not a finite
    number (non-numeric, NaN, infinity) is `Option.none` where the
    source filters on `isinstance(..., (int, float)) and np.isfinite`.
  * `sorted(..., reverse=True)` (CPython, stable) becomes a stable
    insertion sort.
  * `os.getenv` / `int(...)` outcomes become explicit `Option`
    parameters.
All definitions follow `modules/feature_selection.py`,
`modules/machineLearning/classification.py`, `modules/utils.py` and
the `feature_importances.json` merge blocks of
`modules/statisticalTests/statistical_tests.py`.
-/

namespace BioMark

/-! ## Association-list dictionaries (Python `dict` semantics) -/

/-- `d.get(k, dflt)` on an insertion-ordered dict. -/
def lookupD {α : Type} (l : List (String × α)) (k : String) (dflt : α) : α :=
  (l.lookup k).getD dflt

/-- `d[k] = v`: replace the first binding in place, else append. -/
def setK {α : Type} : List (String × α) → String → α → List (String × α)
  | [], k, v => [(k, v)]
  | (k₁, v₁) :: rest, k, v =>
    if k₁ = k then (k, v) :: rest else (k₁, v₁) :: setK rest k v

/-! ## Stable sorting (CPython `sorted`) -/

/-- Insert into a descending-sorted list, keeping the inserted element
before later elements with an equal key (stability of `sorted` with
`reverse=True`). -/
def insertDescBy {α : Type} (key : α → ℚ) (x : α) : List α → List α
  | [] => [x]
  | y :: ys => if key y ≤ key x then x :: y :: ys else y :: insertDescBy key x ys

/-- Stable sort, descending by `key` (models `sorted(.., key=.., reverse=True)`). -/
def sortDescBy {α : Type} (key : α → ℚ) : List α → List α
  | [] => []
  | x :: xs => insertDescBy key x (sortDescBy key xs)

/-- Insert into an ascending-sorted list, keeping the inserted element
before later elements with an equal key. -/
def insertAscBy {α : Type} (key : α → ℚ) (x : α) : List α → List α
  | [] => [x]
  | y :: ys => if key x ≤ key y then x :: y :: ys else y :: insertAscBy key x ys

/-- Stable sort, ascending by `key` (models `DataFrame.sort_values(by=..)`). -/
def sortAscBy {α : Type} (key : α → ℚ) : List α → List α
  | [] => []
  | x :: xs => insertAscBy key x (sortAscBy key xs)

/-! ## `rank_dict` (feature_selection.py lines 40–98) -/

/-- A value of the score dictionary handed to `rank_dict`: a finite
number, a nested `sub_method -> feature -> score` dict (whose scores
are `none` when not a finite number), or anything else. -/
inductive RDVal : Type where
  | num (x : ℚ)
  | sub (feats : List (String × Option ℚ))
  | other
deriving DecidableEq

/-- The argument of `rank_dict`: either not a dict at all, or a dict. -/
inductive RDInput : Type where
  | notDict
  | dict (entries : List (String × RDVal))
deriving DecidableEq

def RDVal.isNum : RDVal → Bool
  | .num _ => true
  | _ => false

def RDVal.isSub : RDVal → Bool
  | .sub _ => true
  | _ => false

def RDVal.numVal : RDVal → ℚ
  | .num x => x
  | _ => 0

/-- Flat ranking: `sorted(d, key=d.get, reverse=True)` then
`{key: rank + 1 for rank, key in enumerate(sorted_keys)}`. -/
def rankFlat (d : List (String × ℚ)) : List (String × Nat) :=
  (sortDescBy Prod.snd d).enum.map (fun p => (p.2.1, p.1 + 1))

/-- `method_weights`: lower-cased keys of `aggregation_weights`, keeping
only finite numeric values (`none` models a non-numeric or non-finite
weight, dropped by the comprehension's filter); a later duplicate key
overwrites the earlier one. -/
def buildMethodWeights (aggregationWeights : Option (List (String × Option ℚ))) :
    List (String × ℚ) :=
  match aggregationWeights with
  | none => []
  | some l =>
    l.foldl (fun acc kv =>
      match kv.2 with
      | some x => setK acc kv.1.toLower x
      | none => acc) []

/-- One accumulation step: `feature_scores[f] += w * s` and
`feature_weight_sums[f] += w`, both dicts sharing first-insertion
order, so they are kept as one list of `(feature, (Σ w·s, Σ w))`. -/
def addScore : List (String × ℚ × ℚ) → String → ℚ → ℚ → List (String × ℚ × ℚ)
  | [], f, w, s => [(f, (w * s, w))]
  | (f₁, p) :: rest, f, w, s =>
    if f₁ = f then (f₁, (p.1 + w * s, p.2 + w)) :: rest
    else (f₁, p) :: addScore rest f w s

/-- The per-sub-method weight: `method_weights.get(str(sub_method).lower(), 1.0)`,
replaced by `1.0` when non-positive (non-finiteness cannot arise in `ℚ`). -/
def subMethodWeight (mw : List (String × ℚ)) (subMethod : String) : ℚ :=
  let w := lookupD mw subMethod.toLower 1
  if w ≤ 0 then 1 else w

/-- The inner loop over one sub-dict: scores that are not finite
numbers are skipped, the rest accumulate with weight `w`. -/
def scoreStep (w : ℚ) (st : List (String × ℚ × ℚ)) (fv : String × Option ℚ) :
    List (String × ℚ × ℚ) :=
  match fv.2 with
  | some s => addScore st fv.1 w s
  | none => st

/-- The outer loop over the nested mapping: top-level values that are
not dicts are skipped (`continue`). -/
def accStep (mw : List (String × ℚ)) (st : List (String × ℚ × ℚ)) (e : String × RDVal) :
    List (String × ℚ × ℚ) :=
  match e.2 with
  | .sub feats => feats.foldl (scoreStep (subMethodWeight mw e.1)) st
  | _ => st

/-- The nested accumulation loop of `rank_dict`: non-dict values are
skipped, non-finite or non-numeric scores are skipped. -/
def accumulateNested (mw : List (String × ℚ)) (entries : List (String × RDVal)) :
    List (String × ℚ × ℚ) :=
  entries.foldl (accStep mw) []

/-- `aggregated = {f: feature_scores[f] / feature_weight_sums[f] for f in
feature_scores if feature_weight_sums.get(f, 0.0) > 0}`. -/
def nestedAggregate (mw : List (String × ℚ)) (entries : List (String × RDVal)) :
    List (String × ℚ) :=
  (accumulateNested mw entries).filterMap
    (fun p => if 0 < p.2.2 then some (p.1, p.2.1 / p.2.2) else none)

/-- `rank_dict` itself: non-dict input yields `{}`; all-numeric values
are ranked directly; otherwise, if any value is a dict, aggregate the
nested scores by weighted mean and rank those; otherwise `{}`. -/
def rank_dict (aggregationWeights : Option (List (String × Option ℚ))) :
    RDInput → List (String × Nat)
  | .notDict => []
  | .dict entries =>
    if entries.all (fun e => e.2.isNum) then
      rankFlat (entries.map (fun e => (e.1, e.2.numVal)))
    else if entries.any (fun e => e.2.isSub) then
      let agg := nestedAggregate (buildMethodWeights aggregationWeights) entries
      if agg = [] then [] else rankFlat agg
    else []

/-! ## Fusion ordering inside `feature_rank` (feature_selection.py lines 132–184) -/

/-- A row of `ranked_data_df` after `dropna()`: the feature name and its
rank under each method, aligned with a shared list of rank columns. -/
abbrev RankRow : Type := String × List ℚ

/-- `overall score`: the row-wise sum of the method ranks. -/
def overallScore (ranks : List ℚ) : ℚ := ranks.sum

/-- The weight of one rank column under `weighted_borda`:
`weights.get(str(c).lower(), 1.0)`. -/
def bordaWeight (weights : List (String × ℚ)) (c : String) : ℚ :=
  lookupD weights c.toLower 1

/-- The `weighted_borda` score of one row: `(ranks * w).sum(axis=1)` with
`w = [weights.get(str(c).lower(), 1.0) for c in rank_cols]`. -/
def bordaScore (weights : List (String × ℚ)) (cols : List String) (ranks : List ℚ) : ℚ :=
  ((cols.zip ranks).map (fun p => bordaWeight weights p.1 * p.2)).sum

/-- The `rrf` score of one row: `(1.0 / (rrf_k + ranks)).sum(axis=1)`. -/
def rrfScore (k : ℤ) (ranks : List ℚ) : ℚ :=
  (ranks.map (fun r => 1 / ((k : ℚ) + r))).sum

/-- Row order under `agg == "weighted_borda"`: ascending by the weighted
sum of ranks (`aggregation_weights or {}` supplies the weights). -/
def weightedBordaOrder (weights : List (String × ℚ)) (cols : List String)
    (rows : List RankRow) : List RankRow :=
  sortAscBy (fun r => bordaScore weights cols r.2) rows

/-- Row order under `agg == "sum"`: ascending by `overall score`. -/
def sumOrder (rows : List RankRow) : List RankRow :=
  sortAscBy (fun r => overallScore r.2) rows

/-! ## Process-wide `rrf_k` override (feature_selection.py lines 150–155)

`env_rrf_k = int(os.getenv("FEATURE_RANK_RRF_K", str(rrf_k)))` followed
by `rrf_k = env_rrf_k`, the whole wrapped in `try/except: pass`.  The
environment is modelled as `Option (Option ℤ)`: `none` when the
variable is unset (so `getenv` returns `str(rrf_k)`, whose `int(...)`
round-trips to the explicit value), `some none` when it is set to a
string `int(...)` rejects (the exception keeps the prior value), and
`some (some k)` when it parses to `k`. -/

def resolveRrfK (explicitK : ℤ) (envRrfK : Option (Option ℤ)) : ℤ :=
  match envRrfK with
  | none => explicitK
  | some none => explicitK
  | some (some k) => k

/-- The `rrf` score actually used for a row, after the override is
resolved. -/
def rrfUsedScore (explicitK : ℤ) (envRrfK : Option (Option ℤ)) (ranks : List ℚ) : ℚ :=
  rrfScore (resolveRrfK explicitK envRrfK) ranks

/-! ## Run-label sanitization (feature_selection.py lines 191–196,
recompute_ranking.py lines 60–68) -/

/-- The character class `[A-Za-z0-9._=+\-]` of the sanitization regex. -/
def isAllowedChar (c : Char) : Bool :=
  ('A' ≤ c && c ≤ 'Z') || ('a' ≤ c && c ≤ 'z') || ('0' ≤ c && c ≤ '9') ||
  c == '.' || c == '_' || c == '=' || c == '+' || c == '-'

/-- Scanner for `re.sub(r'[^A-Za-z0-9._=+\-]+', '_', label)`: allowed
characters are copied; a disallowed character opens a run that emits
one `'_'`; while `inRun` is true, further disallowed characters extend
the same (greedy `+`) match and emit nothing. -/
def sanitizeGo (inRun : Bool) : List Char → List Char
  | [] => []
  | c :: cs =>
    if isAllowedChar c then c :: sanitizeGo false cs
    else if inRun then sanitizeGo true cs
    else '_' :: sanitizeGo true cs

/-- `re.sub(r'[^A-Za-z0-9._=+\-]+', '_', label)` on the character list. -/
def sanitizeChars (l : List Char) : List Char := sanitizeGo false l

/-- `safe_label = re.sub(r'[^A-Za-z0-9._=+\-]+', '_', subdir_label)`. -/
def sanitizeLabel (s : String) : String := ⟨sanitizeChars s.data⟩

/-! ## Best-model selection (classification.py lines 492–518) -/

/-- One iteration of the selection loop:
`if score >= best_model_score: best_model_score, best_model_name = score, model_name`. -/
def selectStep (best r : String × ℚ) : String × ℚ :=
  if best.2 ≤ r.2 then r else best

/-- The selection loop: starting from `best_model_score = 0`,
`best_model_name = ""`, every model whose mean cross-validation F1 is
`>=` the running best overwrites it. -/
def selectBestPair (reports : List (String × ℚ)) : String × ℚ :=
  reports.foldl selectStep ("", 0)

/-- The maximum mean cross-validation F1 across all models (the scores
are F1 means, hence non-negative; the fold seed `0` matches the
loop's initial `best_model_score = 0`). -/
def maxScore (reports : List (String × ℚ)) : ℚ :=
  (reports.map Prod.snd).foldl max 0

/-- Lines 504–518: resolve `best_model_name` against the trained-model
names (exact, then case-insensitive), raising when absent; then raise
`"No best model found"` when `best_model_score < 0.1`. -/
def bestModelOutcome (models : List String) (reports : List (String × ℚ)) :
    Except String (String × ℚ) :=
  let best := selectBestPair reports
  let resolved : Option String :=
    if models.contains best.1 then some best.1
    else models.find? (fun k => k.toLower == best.1.toLower)
  match resolved with
  | none => .error "Best model not found in trained models after standardization."
  | some name =>
    if best.2 < 1 / 10 then .error "No best model found" else .ok (name, best.2)

/-! ## `feature_importances.json` read-merge-write
(statistical_tests.py lines 222–249; the other two sites follow the
same pattern one level up or down) -/

/-- The decoded store: `class_pair -> method -> feature -> score`. -/
abbrev Store : Type := List (String × List (String × List (String × ℚ)))

/-- One method's merge: `for feature, value in ...: target[feature] = value`. -/
def mergeFeatures (old : List (String × ℚ)) (new : List (String × ℚ)) :
    List (String × ℚ) :=
  new.foldl (fun acc fv => setK acc fv.1 fv.2) old

/-- The per-class-pair merge: ensure each method key exists
(`if a not in existing_data[class_pair]: ... = {}`), then assign each
reported feature. -/
def mergeMethods (old : List (String × List (String × ℚ)))
    (batch : List (String × List (String × ℚ))) :
    List (String × List (String × ℚ)) :=
  batch.foldl (fun acc mb => setK acc mb.1 (mergeFeatures (lookupD acc mb.1 []) mb.2)) old

/-- The whole read-merge-write on the decoded JSON: ensure the class
pair key exists, merge the batch beneath it, leave every other class
pair untouched. -/
def mergeStore (store : Store) (classPair : String)
    (batch : List (String × List (String × ℚ))) : Store :=
  setK store classPair (mergeMethods (lookupD store classPair []) batch)

/-- Lookup of one score in the decoded store. -/
def getScore (store : Store) (classPair method feature : String) : Option ℚ :=
  (store.lookup classPair).bind (fun ms => (ms.lookup method).bind (fun fs => fs.lookup feature))

/-! ## Hyperparameter search step of `evaluate_models`
(utils.py lines 146–230) -/

/-- Which data the grid search was fitted on: `X_train_cv` derived from
the raw features (`use_pipeline_cv` branch) or from the
already-transformed features (fallback branch). -/
inductive SearchData : Type where
  | rawCV
  | transformedCV
deriving DecidableEq

/-- Which estimator the grid search ran over: the
preprocess-then-model pipeline, or the bare model. -/
inductive SearchKind : Type where
  | pipelineSearch
  | bareSearch
deriving DecidableEq

/-- `k.split('model__', 1)[1] if k.startswith('model__') else k`
(splitting at the leading occurrence is dropping the 7-character
prefix). -/
def stripModelPrefix (k : String) : String :=
  if "model__".data.isPrefixOf k.data then ⟨k.data.drop 7⟩ else k

/-- Strip the pipeline-stage prefix from the discovered best
parameters. -/
def stripParams {γ : Type} (params : List (String × γ)) : List (String × γ) :=
  params.map (fun p => (stripModelPrefix p.1, p.2))

/-- The grid-search step for one model.  `usePipelineCV` is
`(preprocessor is not None) and (X_train_raw is not None)`.
`pipelineResult` is the outcome of the pipeline grid search on the
raw-derived CV data (`none` when `gs.fit` raised); `bareRawResult` and
`bareTransResult` are the outcomes of the bare-model grid search on the
raw-derived and transformed CV data.  The result records which
estimator was searched, on which data, and the best parameters applied
to the bare model afterwards. -/
def evalSearchStep {γ : Type} (usePipelineCV : Bool)
    (pipelineResult : Option (List (String × γ)))
    (bareRawResult bareTransResult : List (String × γ)) :
    SearchKind × SearchData × List (String × γ) :=
  if usePipelineCV then
    match pipelineResult with
    | some rawBest => (.pipelineSearch, .rawCV, stripParams rawBest)
    | none => (.bareSearch, .rawCV, bareRawResult)
  else (.bareSearch, .transformedCV, bareTransResult)

/-! ## Observations used to state the claims -/

/-- The finite numeric scores one sub-dict reports for feature `f`, in
iteration order. -/
def scoresOf (f : String) (feats : List (String × Option ℚ)) : List ℚ :=
  (feats.filter (fun fv => fv.1 == f)).filterMap (fun fv => fv.2)

/-- The finite numeric scores reported for feature `f` across all
sub-methods of a nested mapping, in iteration order. -/
def collectScores (f : String) (entries : List (String × RDVal)) : List ℚ :=
  (entries.map (fun e =>
    match e.2 with
    | RDVal.sub feats => scoresOf f feats
    | _ => [])).flatten

/-- Effect on one feature's `(Σ w·s, Σ w)` cell of accumulating a batch
of unit-weight scores `l` after prior state `o`. -/
def accAfter (o : Option (ℚ × ℚ)) (l : List ℚ) : Option (ℚ × ℚ) :=
  match o with
  | some p => some (p.1 + l.sum, p.2 + l.length)
  | none => if l.isEmpty then none else some (l.sum, (l.length : ℚ))

/-! # Lemmas about the stable sorts -/

theorem insertDescBy_perm {α : Type} (key : α → ℚ) (x : α) (l : List α) :
    (insertDescBy key x l).Perm (x :: l) := by
  induction l with
  | nil => exact List.Perm.refl _
  | cons y ys ih =>
    simp only [insertDescBy]
    split
    · exact List.Perm.refl _
    · exact (ih.cons y).trans (List.Perm.swap x y ys)

theorem sortDescBy_perm {α : Type} (key : α → ℚ) (l : List α) :
    (sortDescBy key l).Perm l := by
  induction l with
  | nil => exact List.Perm.refl _
  | cons x xs ih => exact (insertDescBy_perm key x (sortDescBy key xs)).trans (ih.cons x)

theorem mem_insertDescBy {α : Type} (key : α → ℚ) (x a : α) (l : List α) :
    a ∈ insertDescBy key x l ↔ a = x ∨ a ∈ l := by
  rw [(insertDescBy_perm key x l).mem_iff, List.mem_cons]

theorem pairwise_insertDescBy {α : Type} (key : α → ℚ) (x : α) (l : List α)
    (h : l.Pairwise (fun a b => key b ≤ key a)) :
    (insertDescBy key x l).Pairwise (fun a b => key b ≤ key a) := by
  induction l with
  | nil => simp [insertDescBy]
  | cons y ys ih =>
    rw [List.pairwise_cons] at h
    simp only [insertDescBy]
    split
    · rename_i hyx
      refine List.Pairwise.cons ?_ (List.Pairwise.cons h.1 h.2)
      intro a ha
      rcases List.mem_cons.mp ha with rfl | ha
      · exact hyx
      · exact le_trans (h.1 a ha) hyx
    · rename_i hyx
      push_neg at hyx
      refine List.Pairwise.cons ?_ (ih h.2)
      intro a ha
      rcases (mem_insertDescBy key x a ys).mp ha with rfl | ha
      · exact le_of_lt hyx
      · exact h.1 a ha

theorem pairwise_sortDescBy {α : Type} (key : α → ℚ) (l : List α) :
    (sortDescBy key l).Pairwise (fun a b => key b ≤ key a) := by
  induction l with
  | nil => simp [sortDescBy]
  | cons x xs ih => exact pairwise_insertDescBy key x (sortDescBy key xs) ih

theorem filter_insertDescBy {α : Type} (key : α → ℚ) (x : α) (l : List α) (q : ℚ) :
    (insertDescBy key x l).filter (fun a => decide (key a = q)) =
      if key x = q then x :: l.filter (fun a => decide (key a = q))
      else l.filter (fun a => decide (key a = q)) := by
  induction l with
  | nil => by_cases hx : key x = q <;> simp [insertDescBy, hx]
  | cons y ys ih =>
    simp only [insertDescBy]
    split
    · by_cases hx : key x = q <;> simp [List.filter_cons, hx]
    · rename_i hyx
      by_cases hx : key x = q
      · have hyq : ¬ (key y = q) := fun h => hyx (le_of_eq (hx ▸ h))
        simp [List.filter_cons, hyq, ih, hx]
      · by_cases hy : key y = q <;> simp [List.filter_cons, hy, ih, hx]

theorem filter_sortDescBy {α : Type} (key : α → ℚ) (l : List α) (q : ℚ) :
    (sortDescBy key l).filter (fun a => decide (key a = q)) =
      l.filter (fun a => decide (key a = q)) := by
  induction l with
  | nil => rfl
  | cons x xs ih =>
    rw [sortDescBy, filter_insertDescBy]
    by_cases hx : key x = q <;> simp [List.filter_cons, hx, ih]

/-! # Lemmas about `rankFlat` -/

theorem map_fst_rankFlat (d : List (String × ℚ)) :
    (rankFlat d).map Prod.fst = (sortDescBy Prod.snd d).map Prod.fst := by
  conv_rhs => rw [← List.enum_map_snd (sortDescBy Prod.snd d)]
  simp only [rankFlat, List.map_map]
  rfl

theorem map_snd_rankFlat (d : List (String × ℚ)) :
    (rankFlat d).map Prod.snd = List.range' 1 d.length := by
  have h1 : (sortDescBy Prod.snd d).length = d.length := (sortDescBy_perm _ _).length_eq
  rw [List.range'_eq_map_range, ← h1, ← List.enum_map_fst (sortDescBy Prod.snd d)]
  simp only [rankFlat, List.map_map]
  congr 1
  funext p
  exact Nat.add_comm _ _

/-- C1: for every all-numeric mapping of size N, `rank_dict` returns a
mapping whose values are exactly the dense ranks 1..N, assigned by
enumerating a reordering of the input that is a permutation of it,
weakly descending on score, and stable (for every score value, the
features carrying it keep their original order). -/
theorem rank_dict_flat_dense_stable (entries : List (String × ℚ)) :
    ∃ s : List (String × ℚ),
      rank_dict none (RDInput.dict (entries.map (fun e => (e.1, RDVal.num e.2))))
        = s.enum.map (fun p => (p.2.1, p.1 + 1)) ∧
      s.Perm entries ∧
      s.Pairwise (fun a b => b.2 ≤ a.2) ∧
      (∀ q : ℚ, s.filter (fun a => decide (a.2 = q))
        = entries.filter (fun a => decide (a.2 = q))) ∧
      (rank_dict none (RDInput.dict (entries.map (fun e => (e.1, RDVal.num e.2))))).map
          Prod.snd
        = List.range' 1 entries.length := by
  have hall : (entries.map (fun e => (e.1, RDVal.num e.2))).all (fun e => e.2.isNum) = true := by
    rw [List.all_eq_true]
    intro e he
    rw [List.mem_map] at he
    obtain ⟨a, _, rfl⟩ := he
    rfl
  have hbranch : rank_dict none (RDInput.dict (entries.map (fun e => (e.1, RDVal.num e.2))))
      = rankFlat entries := by
    simp only [rank_dict, hall, if_true, List.map_map]
    congr 1
    conv_rhs => rw [← List.map_id entries]
    rfl
  refine ⟨sortDescBy Prod.snd entries, ?_, sortDescBy_perm _ _, pairwise_sortDescBy _ _,
      fun q => filter_sortDescBy _ _ q, ?_⟩
  · rw [hbranch]; rfl
  · rw [hbranch, map_snd_rankFlat]

/-! # Lemmas about the ascending sort and fusion orders -/

theorem insertAscBy_perm {α : Type} (key : α → ℚ) (x : α) (l : List α) :
    (insertAscBy key x l).Perm (x :: l) := by
  induction l with
  | nil => exact List.Perm.refl _
  | cons y ys ih =>
    simp only [insertAscBy]
    split
    · exact List.Perm.refl _
    · exact (ih.cons y).trans (List.Perm.swap x y ys)

theorem sortAscBy_perm {α : Type} (key : α → ℚ) (l : List α) :
    (sortAscBy key l).Perm l := by
  induction l with
  | nil => exact List.Perm.refl _
  | cons x xs ih => exact (insertAscBy_perm key x (sortAscBy key xs)).trans (ih.cons x)

theorem insertAscBy_congr {α : Type} (k₁ k₂ : α → ℚ) (x : α) (l : List α)
    (hx : k₁ x = k₂ x) (hl : ∀ a ∈ l, k₁ a = k₂ a) :
    insertAscBy k₁ x l = insertAscBy k₂ x l := by
  induction l with
  | nil => rfl
  | cons y ys ih =>
    have hy := hl y (List.mem_cons_self y ys)
    simp only [insertAscBy, hx, hy]
    split
    · rfl
    · rw [ih (fun a ha => hl a (List.mem_cons_of_mem y ha))]

theorem sortAscBy_congr {α : Type} (k₁ k₂ : α → ℚ) (l : List α)
    (hl : ∀ a ∈ l, k₁ a = k₂ a) :
    sortAscBy k₁ l = sortAscBy k₂ l := by
  induction l with
  | nil => rfl
  | cons x xs ih =>
    simp only [sortAscBy]
    rw [ih (fun a ha => hl a (List.mem_cons_of_mem x ha))]
    exact insertAscBy_congr k₁ k₂ x _ (hl x (List.mem_cons_self x xs))
      (fun a ha => hl a (List.mem_cons_of_mem x ((sortAscBy_perm k₂ xs).mem_iff.mp ha)))

/-- C6: on any rank table whose rows carry one rank per method column,
the `weighted_borda` order with every weight defaulted to `1.0` (empty
weight map) equals the `sum` order (ascending by `overall score`). -/
theorem weightedBorda_unit_weights_eq_sum (cols : List String) (rows : List RankRow)
    (hlen : ∀ r ∈ rows, r.2.length = cols.length) :
    weightedBordaOrder [] cols rows = sumOrder rows := by
  unfold weightedBordaOrder sumOrder
  apply sortAscBy_congr
  intro r hr
  have h1 : ∀ p ∈ cols.zip r.2, bordaWeight [] p.1 * p.2 = p.2 := by
    intro p _
    simp [bordaWeight, lookupD, List.lookup]
  calc bordaScore [] cols r.2
      = ((cols.zip r.2).map Prod.snd).sum := by
        unfold bordaScore
        rw [List.map_congr_left h1]
    _ = r.2.sum := by rw [List.map_snd_zip _ _ (le_of_eq (hlen r hr))]
    _ = overallScore r.2 := rfl

/-- Witness for C6 at a concrete two-method rank table. -/
theorem weightedBorda_unit_weights_eq_sum_witness :
    weightedBordaOrder [] ["m1", "m2"] [("f1", [1, 2]), ("f2", [2, 1])]
      = sumOrder [("f1", [1, 2]), ("f2", [2, 1])] :=
  weightedBorda_unit_weights_eq_sum ["m1", "m2"] [("f1", [1, 2]), ("f2", [2, 1])]
    (by decide)

/-! # Lemmas about label sanitization -/

theorem sanitizeGo_append_allowed (good rest : List Char)
    (h : ∀ c ∈ good, isAllowedChar c = true) :
    sanitizeGo false (good ++ rest) = good ++ sanitizeGo false rest := by
  induction good with
  | nil => rfl
  | cons c cs ih =>
    have hc := h c (List.mem_cons_self c cs)
    simp [sanitizeGo, hc, ih (fun a ha => h a (List.mem_cons_of_mem c ha))]

theorem sanitizeGo_true_skips (bad rest : List Char)
    (h : ∀ c ∈ bad, isAllowedChar c = false) :
    sanitizeGo true (bad ++ rest) = sanitizeGo true rest := by
  induction bad with
  | nil => rfl
  | cons c cs ih =>
    have hc := h c (List.mem_cons_self c cs)
    simp [sanitizeGo, hc, ih (fun a ha => h a (List.mem_cons_of_mem c ha))]

theorem sanitizeGo_true_eq_false_of_head_allowed (rest : List Char)
    (h : rest.head?.all isAllowedChar = true) :
    sanitizeGo true rest = sanitizeGo false rest := by
  cases rest with
  | nil => rfl
  | cons c cs =>
    have hc : isAllowedChar c = true := by simpa [Option.all] using h
    simp [sanitizeGo, hc]

/-- C2 fails on the code: the regex quantifier `+` makes one maximal
run of disallowed characters collapse into a single underscore, so the
label `"model=xgbclassifier!!"` sanitizes to `"model=xgbclassifier_"`,
not `"model=xgbclassifier__"`. -/
theorem sanitizeLabel_counterexample :
    sanitizeLabel "model=xgbclassifier!!" = "model=xgbclassifier_" ∧
    sanitizeLabel "model=xgbclassifier!!" ≠ "model=xgbclassifier__" := by
  constructor
  · decide
  · decide

/-- C2 amended: sanitization keeps every allowed character in place,
and replaces each maximal run of disallowed characters (one not
followed by a further disallowed character) by a single underscore;
`"model=xgbclassifier!!"` becomes `"model=xgbclassifier_"`. -/
theorem sanitizeLabel_amended :
    (∀ good rest : List Char, (∀ c ∈ good, isAllowedChar c = true) →
      sanitizeChars (good ++ rest) = good ++ sanitizeChars rest) ∧
    (∀ bad rest : List Char, bad ≠ [] → (∀ c ∈ bad, isAllowedChar c = false) →
      rest.head?.all isAllowedChar = true →
      sanitizeChars (bad ++ rest) = '_' :: sanitizeChars rest) ∧
    sanitizeLabel "model=xgbclassifier!!" = "model=xgbclassifier_" := by
  refine ⟨fun good rest h => sanitizeGo_append_allowed good rest h, ?_, by decide⟩
  intro bad rest hne hbad hrest
  obtain ⟨c, cs, rfl⟩ : ∃ c cs, bad = c :: cs := by
    cases bad with
    | nil => exact absurd rfl hne
    | cons c cs => exact ⟨c, cs, rfl⟩
  have hc := hbad c (List.mem_cons_self c cs)
  show sanitizeGo false (c :: (cs ++ rest)) = '_' :: sanitizeChars rest
  rw [sanitizeGo, if_neg (by simp [hc]), if_neg (by simp)]
  rw [sanitizeGo_true_skips cs rest (fun a ha => hbad a (List.mem_cons_of_mem c ha))]
  rw [sanitizeGo_true_eq_false_of_head_allowed rest hrest]
  rfl

/-- Witness for the amended C2: an allowed prefix is preserved and one
two-character disallowed run collapses to a single underscore. -/
theorem sanitizeLabel_amended_witness :
    sanitizeChars (['a'] ++ (['!', '?'] ++ ['b'])) = ['a'] ++ ('_' :: sanitizeChars ['b']) := by
  rw [sanitizeLabel_amended.1 ['a'] (['!', '?'] ++ ['b']) (by decide)]
  rw [sanitizeLabel_amended.2.1 ['!', '?'] ['b'] (by decide) (by decide) (by decide)]

/-! # The `rrf_k` override (C3) -/

/-- C3 fails on the code (and on the code's own comment, which says
overrides apply only when the caller does not pass the setting): when
`FEATURE_RANK_RRF_K` parses to an integer it replaces the explicitly
passed `rrf_k` unconditionally, so with explicit `rrf_k = 60` and
override `10` the RRF score of a rank-1 feature is `1/11`, not `1/61`. -/
theorem rrfK_env_overrides_explicit :
    resolveRrfK 60 (some (some 10)) = 10 ∧
    rrfUsedScore 60 (some (some 10)) [1] = 1 / 11 ∧
    rrfScore 60 [1] = 1 / 61 ∧ (1 / 11 : ℚ) ≠ 1 / 61 := by
  refine ⟨rfl, ?_, ?_, by norm_num⟩
  · norm_num [rrfUsedScore, rrfScore, resolveRrfK]
  · norm_num [rrfScore]

/-! # Degradation behavior of `rank_dict` (C4) -/

theorem all_isNum_eq_false_of_any_isSub (entries : List (String × RDVal))
    (h : entries.any (fun e => e.2.isSub) = true) :
    entries.all (fun e => e.2.isNum) = false := by
  obtain ⟨e, he, hsub⟩ := List.any_eq_true.mp h
  apply List.all_eq_false.mpr
  refine ⟨e, he, ?_⟩
  cases h2 : e.2 <;> simp_all [RDVal.isSub, RDVal.isNum]

theorem foldl_accStep_filter (mw : List (String × ℚ)) (entries : List (String × RDVal))
    (st : List (String × ℚ × ℚ)) :
    (entries.filter (fun e => !e.2.isNum)).foldl (accStep mw) st
      = entries.foldl (accStep mw) st := by
  induction entries generalizing st with
  | nil => rfl
  | cons e rest ih =>
    rw [List.filter_cons]
    by_cases h : e.2.isNum = true
    · have hstep : accStep mw st e = st := by
        cases h2 : e.2
        · simp [accStep, h2]
        · rw [h2] at h; exact absurd h (by simp [RDVal.isNum])
        · simp [accStep, h2]
      rw [if_neg (by simp [h]), List.foldl_cons, hstep, ih]
    · rw [if_pos (by simp [h]), List.foldl_cons, List.foldl_cons, ih]

/-- C4 fails as stated: a mapping that mixes a numeric value with a
sub-mapping is not degraded to the empty mapping — the nested branch
ranks the sub-mapping's features. -/
theorem rank_dict_mixed_counterexample :
    rank_dict none (RDInput.dict [("a", RDVal.num 3), ("b", RDVal.sub [("f", some 1)])])
      = [("f", 1)] ∧
    rank_dict none (RDInput.dict [("a", RDVal.num 3), ("b", RDVal.sub [("f", some 1)])])
      ≠ [] := by
  constructor
  · decide
  · decide

/-- C4 amended: `rank_dict` returns the empty mapping when the input is
not a mapping; when the mapping has no sub-mapping value and is not
all-numeric; and when it has a sub-mapping value but no feature
accumulates a positive weight sum.  A mapping that mixes numeric values
and sub-mappings instead goes through the nested branch, which ignores
the numeric top-level values. -/
theorem rank_dict_degrades_amended :
    (∀ w, rank_dict w RDInput.notDict = []) ∧
    (∀ w entries, entries.all (fun e => e.2.isNum) = false →
      entries.any (fun e => e.2.isSub) = false →
      rank_dict w (RDInput.dict entries) = []) ∧
    (∀ w entries, entries.any (fun e => e.2.isSub) = true →
      (∀ p ∈ accumulateNested (buildMethodWeights w) entries, ¬ (0 < p.2.2)) →
      rank_dict w (RDInput.dict entries) = []) ∧
    (∀ w entries, entries.any (fun e => e.2.isSub) = true →
      rank_dict w (RDInput.dict entries)
        = rank_dict w (RDInput.dict (entries.filter (fun e => !e.2.isNum)))) := by
  refine ⟨fun w => rfl, ?_, ?_, ?_⟩
  · intro w entries h1 h2
    simp [rank_dict, h1, h2]
  · intro w entries hsub hw
    have h1 := all_isNum_eq_false_of_any_isSub entries hsub
    have hagg : nestedAggregate (buildMethodWeights w) entries = [] := by
      unfold nestedAggregate
      apply List.filterMap_eq_nil_iff.mpr
      intro p hp
      rw [if_neg (hw p hp)]
    simp [rank_dict, h1, hsub, hagg]
  · intro w entries hsub
    have h1 := all_isNum_eq_false_of_any_isSub entries hsub
    have hsub₂ : (entries.filter (fun e => !e.2.isNum)).any (fun e => e.2.isSub) = true := by
      obtain ⟨e, he, hesub⟩ := List.any_eq_true.mp hsub
      apply List.any_eq_true.mpr
      refine ⟨e, List.mem_filter.mpr ⟨he, ?_⟩, hesub⟩
      cases h2 : e.2 <;> simp_all [RDVal.isSub, RDVal.isNum]
    have h1₂ := all_isNum_eq_false_of_any_isSub _ hsub₂
    have hacc : nestedAggregate (buildMethodWeights w) (entries.filter (fun e => !e.2.isNum))
        = nestedAggregate (buildMethodWeights w) entries := by
      unfold nestedAggregate accumulateNested
      rw [foldl_accStep_filter]
    simp [rank_dict, h1, hsub, h1₂, hsub₂, hacc]

/-- Witness for the amended C4 at concrete degraded inputs. -/
theorem rank_dict_degrades_amended_witness :
    rank_dict none (RDInput.dict [("a", RDVal.other)]) = [] ∧
    rank_dict none (RDInput.dict [("m", RDVal.sub [("f", none)])]) = [] :=
  ⟨rank_dict_degrades_amended.2.1 none [("a", RDVal.other)] (by decide) (by decide),
   rank_dict_degrades_amended.2.2.1 none [("m", RDVal.sub [("f", none)])] (by decide)
     (by decide)⟩

/-! # The nested weighted mean (C5) -/

theorem lookup_addScore_self (st : List (String × ℚ × ℚ)) (f : String) (w s : ℚ) :
    (addScore st f w s).lookup f =
      match st.lookup f with
      | none => some (w * s, w)
      | some p => some (p.1 + w * s, p.2 + w) := by
  induction st with
  | nil => simp [addScore, List.lookup]
  | cons hd tl ih =>
    obtain ⟨f₁, p⟩ := hd
    by_cases h : f₁ = f
    · subst h
      simp [addScore, List.lookup]
    · have hbeq : (f == f₁) = false := beq_eq_false_iff_ne.mpr (Ne.symm h)
      simp [addScore, h, List.lookup, hbeq, ih]

theorem lookup_addScore_ne (st : List (String × ℚ × ℚ)) {f g : String} (hne : g ≠ f)
    (w s : ℚ) : (addScore st f w s).lookup g = st.lookup g := by
  induction st with
  | nil => simp [addScore, List.lookup, beq_eq_false_iff_ne.mpr hne]
  | cons hd tl ih =>
    obtain ⟨f₁, p⟩ := hd
    by_cases h : f₁ = f
    · subst h
      simp [addScore, List.lookup, beq_eq_false_iff_ne.mpr hne]
    · simp [addScore, h, List.lookup, ih]

theorem subMethodWeight_nil (m : String) : subMethodWeight [] m = 1 := by
  norm_num [subMethodWeight, lookupD, List.lookup]

theorem subMethodWeight_pos (mw : List (String × ℚ)) (m : String) :
    0 < subMethodWeight mw m := by
  show (0 : ℚ) < if lookupD mw m.toLower 1 ≤ 0 then 1 else lookupD mw m.toLower 1
  by_cases hle : lookupD mw m.toLower 1 ≤ 0
  · rw [if_pos hle]
    norm_num
  · rw [if_neg hle]
    push_neg at hle
    exact hle

theorem accAfter_append (o : Option (ℚ × ℚ)) (l₁ l₂ : List ℚ) :
    accAfter (accAfter o l₁) l₂ = accAfter o (l₁ ++ l₂) := by
  cases o with
  | some p =>
    simp [accAfter]
    constructor <;> ring
  | none =>
    cases l₁ with
    | nil => simp [accAfter]
    | cons a as =>
      simp [accAfter]
      constructor <;> ring

theorem scoresOf_cons (f : String) (fv : String × Option ℚ) (rest : List (String × Option ℚ)) :
    scoresOf f (fv :: rest)
      = (if fv.1 == f then fv.2.toList else []) ++ scoresOf f rest := by
  by_cases h : fv.1 == f <;> cases hsc : fv.2 <;>
    simp [scoresOf, List.filter_cons, h, hsc]

theorem lookup_foldl_scoreStep (feats : List (String × Option ℚ))
    (st : List (String × ℚ × ℚ)) (f : String) :
    (feats.foldl (scoreStep 1) st).lookup f = accAfter (st.lookup f) (scoresOf f feats) := by
  induction feats generalizing st with
  | nil =>
    cases h : st.lookup f <;> simp [scoresOf, accAfter, h]
  | cons fv rest ih =>
    obtain ⟨g, sc⟩ := fv
    rw [List.foldl_cons, scoresOf_cons]
    cases sc with
    | none =>
      simp only [scoreStep]
      rw [ih]
      simp [Option.toList]
    | some s =>
      by_cases hgf : g = f
      · subst hgf
        simp only [scoreStep]
        rw [ih, lookup_addScore_self]
        simp only [Option.toList, beq_self_eq_true, if_pos]
        rw [← accAfter_append]
        cases h : st.lookup g <;> simp [accAfter]
      · simp only [scoreStep]
        rw [ih, lookup_addScore_ne st (Ne.symm hgf)]
        have hbeq : (g == f) = false := beq_eq_false_iff_ne.mpr hgf
        simp [hbeq]

theorem collectScores_cons (f : String) (e : String × RDVal) (rest : List (String × RDVal)) :
    collectScores f (e :: rest)
      = (match e.2 with
          | RDVal.sub feats => scoresOf f feats
          | _ => []) ++ collectScores f rest := by
  simp [collectScores]

theorem lookup_foldl_accStep_nil (entries : List (String × RDVal))
    (st : List (String × ℚ × ℚ)) (f : String) :
    (entries.foldl (accStep []) st).lookup f
      = accAfter (st.lookup f) (collectScores f entries) := by
  induction entries generalizing st with
  | nil =>
    cases h : st.lookup f <;> simp [collectScores, accAfter, h]
  | cons e rest ih =>
    rw [List.foldl_cons, collectScores_cons]
    cases h2 : e.2 with
    | sub feats =>
      have hstep : accStep [] st e = feats.foldl (scoreStep 1) st := by
        simp [accStep, h2, subMethodWeight_nil]
      rw [hstep, ih, lookup_foldl_scoreStep, accAfter_append]
    | num x =>
      have hstep : accStep [] st e = st := by simp [accStep, h2]
      rw [hstep, ih]
      simp
    | other =>
      have hstep : accStep [] st e = st := by simp [accStep, h2]
      rw [hstep, ih]
      simp

theorem lookup_accumulateNested_nil (entries : List (String × RDVal)) (f : String) :
    (accumulateNested [] entries).lookup f = accAfter none (collectScores f entries) := by
  unfold accumulateNested
  rw [lookup_foldl_accStep_nil]
  rfl

theorem pos_weight_addScore (st : List (String × ℚ × ℚ)) (f : String) (w s : ℚ)
    (hw : 0 < w) (h : ∀ p ∈ st, 0 < p.2.2) : ∀ p ∈ addScore st f w s, 0 < p.2.2 := by
  induction st with
  | nil =>
    intro p hp
    rw [List.mem_singleton.mp hp]
    exact hw
  | cons hd tl ih =>
    obtain ⟨f₁, q⟩ := hd
    intro p hp
    by_cases hf : f₁ = f
    · simp only [addScore, if_pos hf] at hp
      rcases List.mem_cons.mp hp with h1 | h1
      · rw [h1]
        exact add_pos (h (f₁, q) (List.mem_cons_self _ _)) hw
      · exact h p (List.mem_cons_of_mem _ h1)
    · simp only [addScore, if_neg hf] at hp
      rcases List.mem_cons.mp hp with h1 | h1
      · rw [h1]
        exact h (f₁, q) (List.mem_cons_self _ _)
      · exact ih (fun r hr => h r (List.mem_cons_of_mem _ hr)) p h1

theorem pos_weight_foldl_scoreStep (feats : List (String × Option ℚ))
    (st : List (String × ℚ × ℚ)) (w : ℚ) (hw : 0 < w) (h : ∀ p ∈ st, 0 < p.2.2) :
    ∀ p ∈ feats.foldl (scoreStep w) st, 0 < p.2.2 := by
  induction feats generalizing st with
  | nil => exact h
  | cons fv rest ih =>
    rw [List.foldl_cons]
    cases hsc : fv.2 with
    | none =>
      have hstep : scoreStep w st fv = st := by simp [scoreStep, hsc]
      rw [hstep]
      exact ih st h
    | some s =>
      have hstep : scoreStep w st fv = addScore st fv.1 w s := by simp [scoreStep, hsc]
      rw [hstep]
      exact ih _ (pos_weight_addScore st fv.1 w s hw h)

theorem pos_weight_accumulateNested (mw : List (String × ℚ)) (entries : List (String × RDVal)) :
    ∀ p ∈ accumulateNested mw entries, 0 < p.2.2 := by
  unfold accumulateNested
  generalize hst : ([] : List (String × ℚ × ℚ)) = st
  have hbase : ∀ p ∈ st, 0 < p.2.2 := by
    subst hst
    intro p hp
    exact absurd hp (List.not_mem_nil p)
  clear hst
  induction entries generalizing st with
  | nil => exact hbase
  | cons e rest ih =>
    rw [List.foldl_cons]
    apply ih
    cases h2 : e.2 with
    | sub feats =>
      simp only [accStep, h2]
      exact pos_weight_foldl_scoreStep feats st _ (subMethodWeight_pos mw e.1) hbase
    | num x => simpa [accStep, h2] using hbase
    | other => simpa [accStep, h2] using hbase

theorem filterMap_pos_eq_map (st : List (String × ℚ × ℚ)) (h : ∀ p ∈ st, 0 < p.2.2) :
    st.filterMap (fun p => if 0 < p.2.2 then some (p.1, p.2.1 / p.2.2) else none)
      = st.map (fun p => (p.1, p.2.1 / p.2.2)) := by
  induction st with
  | nil => rfl
  | cons hd tl ih =>
    rw [List.filterMap_cons, List.map_cons]
    rw [if_pos (h hd (List.mem_cons_self _ _))]
    rw [ih (fun p hp => h p (List.mem_cons_of_mem _ hp))]

theorem lookup_map_value {β γ : Type} (l : List (String × β)) (g : β → γ) (f : String) :
    (l.map (fun p => (p.1, g p.2))).lookup f = (l.lookup f).map g := by
  induction l with
  | nil => rfl
  | cons hd tl ih =>
    obtain ⟨k, v⟩ := hd
    by_cases h : f = k
    · subst h
      simp [List.lookup]
    · have hbeq : (f == k) = false := beq_eq_false_iff_ne.mpr h
      simp [List.lookup, hbeq, ih]

theorem lookup_nestedAggregate_nil (entries : List (String × RDVal)) (f : String) :
    (nestedAggregate [] entries).lookup f
      = ((accumulateNested [] entries).lookup f).map (fun q => q.1 / q.2) := by
  unfold nestedAggregate
  rw [filterMap_pos_eq_map _ (pos_weight_accumulateNested [] entries)]
  exact lookup_map_value (accumulateNested [] entries) (fun q => q.1 / q.2) f

theorem lookup_isSome_of_mem_keys {β : Type} (l : List (String × β)) (f : String)
    (h : f ∈ l.map Prod.fst) : (l.lookup f).isSome := by
  induction l with
  | nil => simp at h
  | cons hd tl ih =>
    obtain ⟨k, v⟩ := hd
    by_cases hf : f = k
    · subst hf
      simp [List.lookup]
    · have hbeq : (f == k) = false := beq_eq_false_iff_ne.mpr hf
      simp only [List.map_cons, List.mem_cons] at h
      rcases h with h | h
      · exact absurd h hf
      · simp [List.lookup, hbeq, ih h]

/-- C5: for a nested mapping processed with no explicit weights, every
feature that reports at least one finite numeric score is aggregated to
the unweighted arithmetic mean of its reported scores, and a feature
with no finite numeric report receives no rank. -/
theorem rank_dict_nested_unweighted_mean (entries : List (String × RDVal)) (f : String)
    (hsub : entries.any (fun e => e.2.isSub) = true) :
    (collectScores f entries ≠ [] →
      (nestedAggregate [] entries).lookup f
        = some ((collectScores f entries).sum / ((collectScores f entries).length : ℚ))) ∧
    (collectScores f entries = [] →
      f ∉ (rank_dict none (RDInput.dict entries)).map Prod.fst) := by
  constructor
  · intro hne
    rw [lookup_nestedAggregate_nil, lookup_accumulateNested_nil]
    cases hcol : collectScores f entries with
    | nil => exact absurd hcol hne
    | cons a as => simp [accAfter]
  · intro hcol
    have h1 := all_isNum_eq_false_of_any_isSub entries hsub
    have hlk : (nestedAggregate [] entries).lookup f = none := by
      rw [lookup_nestedAggregate_nil, lookup_accumulateNested_nil, hcol]
      rfl
    have hbw : buildMethodWeights none = [] := rfl
    intro hmem
    simp only [rank_dict, h1, hsub, hbw] at hmem
    rw [if_neg (by simp)] at hmem
    rw [if_pos (by simp)] at hmem
    by_cases hagg : nestedAggregate [] entries = []
    · rw [if_pos hagg] at hmem
      simp at hmem
    · rw [if_neg hagg] at hmem
      rw [map_fst_rankFlat] at hmem
      have hmem₂ : f ∈ (nestedAggregate [] entries).map Prod.fst :=
        ((sortDescBy_perm Prod.snd (nestedAggregate [] entries)).map Prod.fst).mem_iff.mp hmem
      have := lookup_isSome_of_mem_keys _ f hmem₂
      rw [hlk] at this
      simp at this

/-- Witness for C5 at a concrete nested mapping: feature `f` is scored
`1` by `m1` and `2` by `m2`, and aggregates to their mean. -/
theorem rank_dict_nested_unweighted_mean_witness :
    (nestedAggregate []
        [("m1", RDVal.sub [("f", some 1), ("g", some 3)]),
         ("m2", RDVal.sub [("f", some 2)])]).lookup "f"
      = some ((collectScores "f"
          [("m1", RDVal.sub [("f", some 1), ("g", some 3)]),
           ("m2", RDVal.sub [("f", some 2)])]).sum /
        ((collectScores "f"
          [("m1", RDVal.sub [("f", some 1), ("g", some 3)]),
           ("m2", RDVal.sub [("f", some 2)])]).length : ℚ)) :=
  (rank_dict_nested_unweighted_mean
    [("m1", RDVal.sub [("f", some 1), ("g", some 3)]),
     ("m2", RDVal.sub [("f", some 2)])] "f" (by decide)).1 (by decide)

/-! # Best-model selection (C7, C8) -/

theorem foldl_selectStep_spec (l : List (String × ℚ)) (b : String × ℚ) :
    (l.foldl selectStep b = b ∧ ∀ p ∈ l, p.2 < b.2) ∨
    (∃ pre post, l = pre ++ (l.foldl selectStep b) :: post ∧
      b.2 ≤ (l.foldl selectStep b).2 ∧
      (∀ p ∈ pre, p.2 ≤ (l.foldl selectStep b).2) ∧
      (∀ p ∈ post, p.2 < (l.foldl selectStep b).2)) := by
  induction l generalizing b with
  | nil =>
    left
    exact ⟨rfl, fun p hp => absurd hp (List.not_mem_nil p)⟩
  | cons r rest ih =>
    rw [List.foldl_cons]
    by_cases hbr : b.2 ≤ r.2
    · have hstep : selectStep b r = r := by simp [selectStep, hbr]
      rw [hstep]
      rcases ih r with ⟨heq, hall⟩ | ⟨pre, post, hsplit, hbr2, hpre, hpost⟩
      · right
        refine ⟨[], rest, ?_, ?_, fun p hp => absurd hp (List.not_mem_nil p), ?_⟩
        · rw [heq]
          rfl
        · rw [heq]
          exact hbr
        · rw [heq]
          exact hall
      · right
        refine ⟨r :: pre, post, ?_, le_trans hbr hbr2, ?_, hpost⟩
        · rw [List.cons_append, ← hsplit]
        · intro p hp
          rcases List.mem_cons.mp hp with h1 | h1
          · rw [h1]
            exact hbr2
          · exact hpre p h1
    · have hstep : selectStep b r = b := by simp [selectStep, hbr]
      rw [hstep]
      push_neg at hbr
      rcases ih b with ⟨heq, hall⟩ | ⟨pre, post, hsplit, hb2, hpre, hpost⟩
      · left
        refine ⟨heq, ?_⟩
        intro p hp
        rcases List.mem_cons.mp hp with h1 | h1
        · rw [h1]
          exact hbr
        · exact hall p h1
      · right
        refine ⟨r :: pre, post, ?_, hb2, ?_, hpost⟩
        · rw [List.cons_append, ← hsplit]
        · intro p hp
          rcases List.mem_cons.mp hp with h1 | h1
          · rw [h1]
            exact le_trans (le_of_lt hbr) hb2
          · exact hpre p h1

theorem selectBestPair_spec (reports : List (String × ℚ)) (hne : reports ≠ [])
    (hpos : ∀ p ∈ reports, 0 ≤ p.2) :
    ∃ pre post, reports = pre ++ selectBestPair reports :: post ∧
      (∀ p ∈ pre, p.2 ≤ (selectBestPair reports).2) ∧
      (∀ p ∈ post, p.2 < (selectBestPair reports).2) := by
  rcases foldl_selectStep_spec reports ("", 0) with ⟨_, hall⟩ | ⟨pre, post, hsplit, _, hpre, hpost⟩
  · cases reports with
    | nil => exact absurd rfl hne
    | cons r rest =>
      have h1 := hall r (List.mem_cons_self r rest)
      have h2 := hpos r (List.mem_cons_self r rest)
      exact absurd h1 (not_lt.mpr h2)
  · exact ⟨pre, post, hsplit, hpre, hpost⟩

theorem selectBestPair_mem (reports : List (String × ℚ)) (hne : reports ≠ [])
    (hpos : ∀ p ∈ reports, 0 ≤ p.2) : selectBestPair reports ∈ reports := by
  obtain ⟨pre, post, hsplit, _, _⟩ := selectBestPair_spec reports hne hpos
  have h1 : selectBestPair reports ∈ pre ++ selectBestPair reports :: post :=
    List.mem_append_right pre (List.mem_cons_self _ _)
  rwa [← hsplit] at h1

theorem selectBestPair_is_ub (reports : List (String × ℚ)) (hne : reports ≠ [])
    (hpos : ∀ p ∈ reports, 0 ≤ p.2) :
    ∀ p ∈ reports, p.2 ≤ (selectBestPair reports).2 := by
  obtain ⟨pre, post, hsplit, hpre, hpost⟩ := selectBestPair_spec reports hne hpos
  intro p hp
  rw [hsplit] at hp
  rcases List.mem_append.mp hp with h1 | h1
  · exact hpre p h1
  · rcases List.mem_cons.mp h1 with h2 | h2
    · rw [h2]
    · exact le_of_lt (hpost p h2)

/-- C7: the best-model loop tracks the maximum mean cross-validation F1
with a greater-or-equal comparison, so the selected entry splits the
report list into a prefix of scores `≤` its own and a suffix of scores
strictly below it — it is the last entry attaining the maximum; in
particular `{M1: 0.80, M2: 0.80}` selects `M2`. -/
theorem selectBest_last_argmax :
    (∀ reports : List (String × ℚ), reports ≠ [] → (∀ p ∈ reports, 0 ≤ p.2) →
      ∃ pre post, reports = pre ++ selectBestPair reports :: post ∧
        (∀ p ∈ pre, p.2 ≤ (selectBestPair reports).2) ∧
        (∀ p ∈ post, p.2 < (selectBestPair reports).2)) ∧
    selectBestPair [("M1", 4 / 5), ("M2", 4 / 5)] = ("M2", 4 / 5) := by
  constructor
  · exact selectBestPair_spec
  · norm_num [selectBestPair, selectStep, List.foldl]

/-- Witness for C7 at the two-way tie `{M1: 0.80, M2: 0.80}`. -/
theorem selectBest_last_argmax_witness :
    ∃ pre post, [("M1", (4 : ℚ) / 5), ("M2", 4 / 5)]
        = pre ++ selectBestPair [("M1", 4 / 5), ("M2", 4 / 5)] :: post ∧
      (∀ p ∈ pre, p.2 ≤ (selectBestPair [("M1", 4 / 5), ("M2", 4 / 5)]).2) ∧
      (∀ p ∈ post, p.2 < (selectBestPair [("M1", 4 / 5), ("M2", 4 / 5)]).2) :=
  selectBest_last_argmax.1 [("M1", 4 / 5), ("M2", 4 / 5)] (by simp)
    (by
      intro p hp
      rcases List.mem_cons.mp hp with h1 | h1
      · rw [h1]
        norm_num
      · rw [List.mem_singleton.mp h1]
        norm_num)

theorem le_foldl_max (l : List ℚ) (b : ℚ) :
    b ≤ l.foldl max b ∧ ∀ x ∈ l, x ≤ l.foldl max b := by
  induction l generalizing b with
  | nil => exact ⟨le_refl b, fun x hx => absurd hx (List.not_mem_nil x)⟩
  | cons y ys ih =>
    rw [List.foldl_cons]
    obtain ⟨h1, h2⟩ := ih (max b y)
    refine ⟨le_trans (le_max_left b y) h1, ?_⟩
    intro x hx
    rcases List.mem_cons.mp hx with h3 | h3
    · rw [h3]
      exact le_trans (le_max_right b y) h1
    · exact h2 x h3

theorem foldl_max_le (l : List ℚ) (b c : ℚ) (hb : b ≤ c) (h : ∀ x ∈ l, x ≤ c) :
    l.foldl max b ≤ c := by
  induction l generalizing b with
  | nil => exact hb
  | cons y ys ih =>
    rw [List.foldl_cons]
    exact ih (max b y) (max_le hb (h y (List.mem_cons_self y ys)))
      (fun x hx => h x (List.mem_cons_of_mem y hx))

theorem maxScore_eq_selectBest (reports : List (String × ℚ)) (hne : reports ≠ [])
    (hpos : ∀ p ∈ reports, 0 ≤ p.2) :
    maxScore reports = (selectBestPair reports).2 := by
  have hmem := selectBestPair_mem reports hne hpos
  have hub := selectBestPair_is_ub reports hne hpos
  apply le_antisymm
  · apply foldl_max_le
    · exact hpos _ hmem
    · intro x hx
      rw [List.mem_map] at hx
      obtain ⟨p, hp, rfl⟩ := hx
      exact hub p hp
  · exact (le_foldl_max (reports.map Prod.snd) 0).2 _ (List.mem_map_of_mem Prod.snd hmem)

/-- C8: with the trained-model names being the report keys, a maximum
mean cross-validation F1 below `0.1` makes the trainer raise the fatal
`"No best model found"` error, and a maximum of at least `0.1` selects
a model without that error. -/
theorem bestModel_usability_floor (reports : List (String × ℚ)) (hne : reports ≠ [])
    (hpos : ∀ p ∈ reports, 0 ≤ p.2) :
    (maxScore reports < 1 / 10 →
      bestModelOutcome (reports.map Prod.fst) reports
        = Except.error "No best model found") ∧
    (1 / 10 ≤ maxScore reports →
      ∃ b, bestModelOutcome (reports.map Prod.fst) reports = Except.ok b) := by
  have hmem := selectBestPair_mem reports hne hpos
  have hcont : (reports.map Prod.fst).contains (selectBestPair reports).1 = true :=
    List.elem_eq_true_of_mem (List.mem_map_of_mem Prod.fst hmem)
  have hms := maxScore_eq_selectBest reports hne hpos
  constructor
  · intro hlt
    rw [hms] at hlt
    simp only [bestModelOutcome, hcont, if_true]
    rw [if_pos hlt]
  · intro hge
    rw [hms] at hge
    refine ⟨((selectBestPair reports).1, (selectBestPair reports).2), ?_⟩
    simp only [bestModelOutcome, hcont, if_true]
    rw [if_neg (not_lt.mpr hge)]

/-- Witness for C8: a single model with mean CV F1 `0.05` trips the
usability floor. -/
theorem bestModel_usability_floor_witness :
    bestModelOutcome ["M"] [("M", 1 / 20)] = Except.error "No best model found" := by
  have h := bestModel_usability_floor [("M", (1 : ℚ) / 20)] (by simp)
    (by
      intro p hp
      rw [List.mem_singleton.mp hp]
      norm_num)
  have h2 := h.1 (by norm_num [maxScore])
  simpa using h2

/-! # The `feature_importances.json` merge (C9) -/

theorem lookup_setK_self {β : Type} (l : List (String × β)) (k : String) (v : β) :
    (setK l k v).lookup k = some v := by
  induction l with
  | nil => simp [setK, List.lookup]
  | cons hd tl ih =>
    obtain ⟨k₁, v₁⟩ := hd
    by_cases h : k₁ = k
    · simp [setK, h, List.lookup]
    · have hbeq : (k == k₁) = false := beq_eq_false_iff_ne.mpr (Ne.symm h)
      simp [setK, h, List.lookup, hbeq, ih]

theorem lookup_setK_ne {β : Type} (l : List (String × β)) {k k₂ : String} (hne : k₂ ≠ k)
    (v : β) : (setK l k v).lookup k₂ = l.lookup k₂ := by
  induction l with
  | nil => simp [setK, List.lookup, beq_eq_false_iff_ne.mpr hne]
  | cons hd tl ih =>
    obtain ⟨k₁, v₁⟩ := hd
    by_cases h : k₁ = k
    · subst h
      simp [setK, List.lookup, beq_eq_false_iff_ne.mpr hne]
    · simp [setK, h, List.lookup, ih]

theorem lookup_eq_none_of_not_mem {β : Type} (l : List (String × β)) (f : String)
    (h : f ∉ l.map Prod.fst) : l.lookup f = none := by
  induction l with
  | nil => rfl
  | cons hd tl ih =>
    obtain ⟨k, v⟩ := hd
    simp only [List.map_cons, List.mem_cons] at h
    push_neg at h
    have hbeq : (f == k) = false := beq_eq_false_iff_ne.mpr h.1
    simp [List.lookup, hbeq, ih h.2]

theorem lookup_mem {β : Type} (l : List (String × β)) (k : String) (v : β)
    (h : l.lookup k = some v) : (k, v) ∈ l := by
  induction l with
  | nil => simp [List.lookup] at h
  | cons hd tl ih =>
    obtain ⟨k₁, v₁⟩ := hd
    by_cases hk : k = k₁
    · subst hk
      simp [List.lookup] at h
      rw [h]
      exact List.mem_cons_self _ _
    · have hbeq : (k == k₁) = false := beq_eq_false_iff_ne.mpr hk
      simp only [List.lookup, hbeq] at h
      exact List.mem_cons_of_mem _ (ih h)

theorem lookup_mergeFeatures_not_mem (old new : List (String × ℚ)) (f : String)
    (h : f ∉ new.map Prod.fst) :
    (mergeFeatures old new).lookup f = old.lookup f := by
  induction new generalizing old with
  | nil => rfl
  | cons nb rest ih =>
    simp only [List.map_cons, List.mem_cons] at h
    push_neg at h
    show (rest.foldl (fun acc fv => setK acc fv.1 fv.2) (setK old nb.1 nb.2)).lookup f
      = old.lookup f
    rw [show rest.foldl (fun acc fv => setK acc fv.1 fv.2) (setK old nb.1 nb.2)
        = mergeFeatures (setK old nb.1 nb.2) rest from rfl]
    rw [ih (setK old nb.1 nb.2) h.2]
    exact lookup_setK_ne old h.1 nb.2

theorem lookup_mergeFeatures (old new : List (String × ℚ)) (f : String)
    (hnd : (new.map Prod.fst).Nodup) :
    (mergeFeatures old new).lookup f
      = match new.lookup f with
        | some v => some v
        | none => old.lookup f := by
  induction new generalizing old with
  | nil => simp [mergeFeatures, List.lookup]
  | cons nb rest ih =>
    obtain ⟨k, v⟩ := nb
    rw [List.map_cons, List.nodup_cons] at hnd
    show (rest.foldl (fun acc fv => setK acc fv.1 fv.2) (setK old k v)).lookup f
      = match ((k, v) :: rest).lookup f with
        | some w => some w
        | none => old.lookup f
    rw [show rest.foldl (fun acc fv => setK acc fv.1 fv.2) (setK old k v)
        = mergeFeatures (setK old k v) rest from rfl]
    by_cases hf : f = k
    · subst hf
      have hrest : rest.lookup f = none := lookup_eq_none_of_not_mem rest f hnd.1
      rw [ih (setK old f v) hnd.2, hrest]
      simp [List.lookup, lookup_setK_self]
    · have hbeq : (f == k) = false := beq_eq_false_iff_ne.mpr hf
      rw [ih (setK old k v) hnd.2]
      simp only [List.lookup, hbeq]
      cases hr : rest.lookup f with
      | some w => rfl
      | none => exact lookup_setK_ne old hf v

theorem lookup_mergeMethods_not_mem (old batch : List (String × List (String × ℚ)))
    (m : String) (h : m ∉ batch.map Prod.fst) :
    (mergeMethods old batch).lookup m = old.lookup m := by
  induction batch generalizing old with
  | nil => rfl
  | cons mb rest ih =>
    simp only [List.map_cons, List.mem_cons] at h
    push_neg at h
    show (rest.foldl (fun acc mb₂ => setK acc mb₂.1 (mergeFeatures (lookupD acc mb₂.1 []) mb₂.2))
        (setK old mb.1 (mergeFeatures (lookupD old mb.1 []) mb.2))).lookup m = old.lookup m
    rw [show rest.foldl
          (fun acc mb₂ => setK acc mb₂.1 (mergeFeatures (lookupD acc mb₂.1 []) mb₂.2))
          (setK old mb.1 (mergeFeatures (lookupD old mb.1 []) mb.2))
        = mergeMethods (setK old mb.1 (mergeFeatures (lookupD old mb.1 []) mb.2)) rest from rfl]
    rw [ih _ h.2]
    exact lookup_setK_ne old h.1 _

theorem lookup_mergeMethods (old batch : List (String × List (String × ℚ))) (m : String)
    (hnd : (batch.map Prod.fst).Nodup) :
    (mergeMethods old batch).lookup m
      = match batch.lookup m with
        | some feats => some (mergeFeatures (lookupD old m []) feats)
        | none => old.lookup m := by
  induction batch generalizing old with
  | nil => simp [mergeMethods, List.lookup]
  | cons mb rest ih =>
    obtain ⟨k, feats⟩ := mb
    rw [List.map_cons, List.nodup_cons] at hnd
    show (rest.foldl (fun acc mb₂ => setK acc mb₂.1 (mergeFeatures (lookupD acc mb₂.1 []) mb₂.2))
        (setK old k (mergeFeatures (lookupD old k []) feats))).lookup m
      = match ((k, feats) :: rest).lookup m with
        | some fs => some (mergeFeatures (lookupD old m []) fs)
        | none => old.lookup m
    rw [show rest.foldl
          (fun acc mb₂ => setK acc mb₂.1 (mergeFeatures (lookupD acc mb₂.1 []) mb₂.2))
          (setK old k (mergeFeatures (lookupD old k []) feats))
        = mergeMethods (setK old k (mergeFeatures (lookupD old k []) feats)) rest from rfl]
    by_cases hm : m = k
    · subst hm
      rw [lookup_mergeMethods_not_mem _ rest m hnd.1]
      simp [List.lookup, lookup_setK_self]
    · have hbeq : (m == k) = false := beq_eq_false_iff_ne.mpr hm
      rw [ih _ hnd.2]
      simp only [List.lookup, hbeq]
      cases hr : rest.lookup m with
      | some fs =>
        have : lookupD (setK old k (mergeFeatures (lookupD old k []) feats)) m []
            = lookupD old m [] := by
          unfold lookupD
          rw [lookup_setK_ne old hm]
        rw [this]
      | none => exact lookup_setK_ne old hm _

/-- C9: one read-merge-write of the on-disk store for one class pair
only grows it: every score present before the merge is still present
afterwards, unchanged unless the same class pair, method and feature is
re-reported in the batch, in which case it carries the batch's value;
nothing is ever deleted. -/
theorem mergeStore_grows (store : Store) (classPair : String)
    (batch : List (String × List (String × ℚ)))
    (hb : (batch.map Prod.fst).Nodup)
    (hbin : ∀ mb ∈ batch, (mb.2.map Prod.fst).Nodup) :
    (∀ cp m f q, getScore store cp m f = some q →
      (cp ≠ classPair ∨ (batch.lookup m).bind (fun fs => fs.lookup f) = none) →
      getScore (mergeStore store classPair batch) cp m f = some q) ∧
    (∀ cp m f q, getScore store cp m f = some q →
      ∃ q₂, getScore (mergeStore store classPair batch) cp m f = some q₂) ∧
    (∀ m f q, (batch.lookup m).bind (fun fs => fs.lookup f) = some q →
      getScore (mergeStore store classPair batch) classPair m f = some q) := by
  have hcp : (mergeStore store classPair batch).lookup classPair
      = some (mergeMethods (lookupD store classPair []) batch) :=
    lookup_setK_self store classPair _
  have hother : ∀ cp, cp ≠ classPair →
      (mergeStore store classPair batch).lookup cp = store.lookup cp := by
    intro cp hne
    exact lookup_setK_ne store hne _
  have hkey : ∀ m f q₁,
      getScore store classPair m f = some q₁ →
      ∃ q₂, getScore (mergeStore store classPair batch) classPair m f = some q₂ ∧
        (q₂ = q₁ ∨ (batch.lookup m).bind (fun fs => fs.lookup f) = some q₂) := by
    intro m f q₁ hq
    unfold getScore at hq ⊢
    rw [hcp]
    cases hms : store.lookup classPair with
    | none => rw [hms] at hq; simp at hq
    | some ms =>
      rw [hms] at hq
      simp only [Option.some_bind] at hq ⊢
      cases hfs : ms.lookup m with
      | none => rw [hfs] at hq; simp at hq
      | some fs =>
        rw [hfs] at hq
        simp only [Option.some_bind] at hq
        have hold : lookupD store classPair [] = ms := by
          unfold lookupD
          rw [hms]
          rfl
        rw [lookup_mergeMethods _ batch m hb, hold]
        cases hbm : batch.lookup m with
        | none =>
          rw [hfs]
          simp only [Option.some_bind]
          exact ⟨q₁, hq, Or.inl rfl⟩
        | some feats =>
          have hnodup : (feats.map Prod.fst).Nodup :=
            hbin (m, feats) (lookup_mem batch m feats hbm)
          have hold₂ : lookupD ms m [] = fs := by
            unfold lookupD
            rw [hfs]
            rfl
          rw [hold₂]
          simp only [Option.some_bind]
          rw [lookup_mergeFeatures fs feats f hnodup]
          cases hff : feats.lookup f with
          | none => exact ⟨q₁, hq, Or.inl rfl⟩
          | some v =>
            refine ⟨v, rfl, Or.inr ?_⟩
            simp [hbm, hff]
  refine ⟨?_, ?_, ?_⟩
  · intro cp m f q hq hcond
    by_cases hcpeq : cp = classPair
    · subst hcpeq
      rcases hcond with hcond | hcond
      · exact absurd rfl hcond
      · obtain ⟨q₂, hq₂, hcase⟩ := hkey m f q hq
        rcases hcase with rfl | hbatch
        · exact hq₂
        · rw [hcond] at hbatch
          simp at hbatch
    · unfold getScore at hq ⊢
      rw [hother cp hcpeq]
      exact hq
  · intro cp m f q hq
    by_cases hcpeq : cp = classPair
    · subst hcpeq
      obtain ⟨q₂, hq₂, _⟩ := hkey m f q hq
      exact ⟨q₂, hq₂⟩
    · unfold getScore at hq ⊢
      rw [hother cp hcpeq]
      exact ⟨q, hq⟩
  · intro m f q hbatch
    cases hbm : batch.lookup m with
    | none => rw [hbm] at hbatch; simp at hbatch
    | some feats =>
      rw [hbm] at hbatch
      simp only [Option.some_bind] at hbatch
      have hnodup : (feats.map Prod.fst).Nodup :=
        hbin (m, feats) (lookup_mem batch m feats hbm)
      unfold getScore
      rw [hcp]
      simp only [Option.some_bind]
      rw [lookup_mergeMethods _ batch m hb, hbm]
      simp only [Option.some_bind]
      rw [lookup_mergeFeatures _ feats f hnodup, hbatch]

/-- Witness for C9: re-reporting feature `f1` for class pair `A_B`
overwrites its score with the batch's value. -/
theorem mergeStore_grows_witness :
    getScore (mergeStore [("A_B", [("anova", [("f1", 1)])])] "A_B" [("anova", [("f1", 9)])])
      "A_B" "anova" "f1" = some 9 :=
  (mergeStore_grows [("A_B", [("anova", [("f1", 1)])])] "A_B" [("anova", [("f1", 9)])]
    (by simp) (by simp)).2.2 "anova" "f1" 9 rfl

/-! # The hyperparameter-search fallback (C10) -/

/-- C10 fails as stated: when the pipeline-based grid search raises,
the silent bare-model retry is fitted on the CV data derived from the
RAW features (the dataset chosen for the pipeline path), not on the
already-transformed training features. -/
theorem evalSearch_fallback_counterexample :
    evalSearchStep true (none : Option (List (String × ℚ))) [("C", 1)] [("C", 2)]
      = (SearchKind.bareSearch, SearchData.rawCV, [("C", 1)]) ∧
    SearchData.rawCV ≠ SearchData.transformedCV := by
  constructor
  · rfl
  · decide

/-- C10 amended: a pipeline grid-search failure is neither propagated
nor does it skip the model — the bare model is silently retried on the
same raw-derived CV data, so its result supplies the applied
parameters; on success the pipeline's best parameters are
`model__`-prefix-stripped; only when no raw features or preprocessor
are available does the bare search run on the transformed features. -/
theorem evalSearch_fallback_amended :
    (∀ (γ : Type) (bareRaw bareTrans : List (String × γ)),
      evalSearchStep true none bareRaw bareTrans
        = (SearchKind.bareSearch, SearchData.rawCV, bareRaw)) ∧
    (∀ (γ : Type) (pb bareRaw bareTrans : List (String × γ)),
      evalSearchStep true (some pb) bareRaw bareTrans
        = (SearchKind.pipelineSearch, SearchData.rawCV, stripParams pb)) ∧
    (∀ (γ : Type) (pr : Option (List (String × γ))) (bareRaw bareTrans : List (String × γ)),
      evalSearchStep false pr bareRaw bareTrans
        = (SearchKind.bareSearch, SearchData.transformedCV, bareTrans)) ∧
    stripModelPrefix "model__max_depth" = "max_depth" ∧
    stripModelPrefix "n_estimators" = "n_estimators" := by
  refine ⟨fun γ a b => rfl, fun γ pb a b => rfl, fun γ pr a b => rfl, ?_, ?_⟩
  · decide
  · decide

end BioMark
